import Mathlib

/-
Shallow embedding of src/ema_gen.py (EMA schedule generator).

The program's randomness (Python's process-wide `random` module) is modelled
as a read-only stream of natural numbers together with a position: each call
of `random.randrange(k)` reads the value at the current position, reduces it
modulo k into the half-open range [0, k), and advances the position by one.
Python exceptions are modelled with `Except PyErr`; `random_minute_offsets`
returning `None` on retry-budget exhaustion is modelled with `Option`.
All Python ints are `Int`; `//` is `Int.fdiv` (floor division), guarded by
an explicit `ZeroDivisionError` case, and `random.randrange(k)` with k <= 0
is a `ValueError`, as in CPython. `datetime`/`timedelta` values are whole
minutes in this program, so both are modelled as `Int` minute counts.
-/

namespace EmaGen

/-- The process-wide pseudorandom source: an unbounded stream of draws and
the position of the next unread draw. -/
structure Rng where
  stream : Nat → Nat
  pos : Nat

/-- The Python exceptions this program can raise in its core. -/
inductive PyErr where
  | valueError
  | zeroDivisionError
  | typeError
  deriving DecidableEq, Repr

/-- `random.randrange(k)`: uniform integer draw from [0, k); raises
`ValueError` when the range is empty (k <= 0). -/
def randrange (k : Int) (g : Rng) : Except PyErr (Int × Rng) :=
  if k ≤ 0 then .error .valueError
  else .ok (((g.stream g.pos % k.toNat : Nat) : Int), ⟨g.stream, g.pos + 1⟩)

/-- The list comprehension in `random_minute_offsets`:
`[random.randrange(fragment_length) + (i * fragment_length) + day_jitter
  for i in range(num_samples)]`, evaluated left to right over the index
list, threading the random source. -/
def drawOffsets (fl dj : Int) : List Nat → Rng → Except PyErr (List Int × Rng)
  | [], g => .ok ([], g)
  | i :: is, g =>
    match randrange fl g with
    | .error e => .error e
    | .ok (r, g1) =>
      match drawOffsets fl dj is g1 with
      | .error e => .error e
      | .ok (rest, g2) => .ok ((r + (i : Int) * fl + dj) :: rest, g2)

/-- Python's `min` over a list: `None`-free but raises `ValueError` on an
empty sequence, which the caller models by matching on `none`. -/
def listMin : List Int → Option Int
  | [] => none
  | x :: xs => some (xs.foldl min x)

/-- `diffs = [(time_offsets[i + 1] - time_offsets[i]) for i in ...]`:
the consecutive differences of a list. -/
def consecDiffs (l : List Int) : List Int :=
  List.zipWith (fun a b => a - b) (l.drop 1) l

/-- `MAX_ITERS = 1000` -/
def MAX_ITERS : Nat := 1000

/-- The `while iter < MAX_ITERS` rejection loop of `random_minute_offsets`,
with the remaining retry budget as fuel. Returns the accepted offsets (or
`none` on exhaustion, as the Python function returns `None`) together with
the number of generation attempts performed and the advanced random source.
`day_jitter` (`dj`) is a fixed parameter: the loop never re-draws it. -/
def attemptLoop (ns gap fl dj : Int) : Nat → Rng → Except PyErr (Option (List Int) × Nat × Rng)
  | 0, g => .ok (none, 0, g)
  | fuel + 1, g =>
    match drawOffsets fl dj (List.range ns.toNat) g with
    | .error e => .error e
    | .ok (offs, g1) =>
      if ns = 1 then .ok (some offs, 1, g1)
      else
        match listMin (consecDiffs offs) with
        | none => .error .valueError
        | some m =>
          if gap < m then .ok (some offs, 1, g1)
          else
            match attemptLoop ns gap fl dj fuel g1 with
            | .error e => .error e
            | .ok (res, n, g2) => .ok (res, n + 1, g2)

/-- `random_minute_offsets(num_samples, total_minutes, gap_minutes,
day_jitter_scale=0)`: draws `day_jitter` once, shrinks the window by the
jitter budget, computes the fragment length by floor division (a
`ZeroDivisionError` when `num_samples == 0`), then runs the rejection loop
for up to `MAX_ITERS` attempts. -/
def randomMinuteOffsets (ns tm gap js : Int) (g : Rng) :
    Except PyErr (Option (List Int) × Nat × Rng) :=
  let djmax := gap * js
  let tm2 := tm - djmax
  match randrange (djmax + 1) g with
  | .error e => .error e
  | .ok (dj, g1) =>
    if ns = 0 then .error .zeroDivisionError
    else attemptLoop ns gap (Int.fdiv tm2 ns) dj MAX_ITERS g1

/-- `timedelta(minutes=ofs)`: under the minutes model a timedelta is its
minute count. -/
def timedeltaOfMinutes (m : Int) : Int := m

/-- `random_timedeltas(num_samples, total_minutes, gap_minutes)`: wraps each
returned offset in a timedelta. Iterating over the `None` that
`random_minute_offsets` returns on exhaustion raises a `TypeError`. -/
def randomTimedeltas (ns tm gap : Int) (g : Rng) : Except PyErr (List Int × Rng) :=
  match randomMinuteOffsets ns tm gap 0 g with
  | .error e => .error e
  | .ok (none, _, _) => .error .typeError
  | .ok (some offs, _, g1) => .ok (offs.map timedeltaOfMinutes, g1)

/-- `make_sample_times(date, start_delta, samples, sampling_min, gap_min)`:
one day's sample datetimes, `date + start_delta + sample_delta`. -/
def makeSampleTimes (date sdelta samples samplingMin gapMin : Int) (g : Rng) :
    Except PyErr (List Int × Rng) :=
  match randomTimedeltas samples samplingMin gapMin g with
  | .error e => .error e
  | .ok (ds, g1) => .ok (ds.map (fun d => date + sdelta + d), g1)

/-- `timedelta(days=1)` in minutes. -/
def minutesPerDay : Int := 1440

/-- The `for day in range(days)` loop of `generate_schedule`, over the
explicit list of day indices, concatenating each day's sample times. -/
def generateScheduleAux (start sdelta spd samplingMin gapMin : Int) :
    List Nat → Rng → Except PyErr (List Int × Rng)
  | [], g => .ok ([], g)
  | d :: ds, g =>
    match makeSampleTimes (start + (d : Int) * minutesPerDay) sdelta spd samplingMin gapMin g with
    | .error e => .error e
    | .ok (ts, g1) =>
      match generateScheduleAux start sdelta spd samplingMin gapMin ds g1 with
      | .error e => .error e
      | .ok (rest, g2) => .ok (ts ++ rest, g2)

/-- `generate_schedule(start_date, start_delta, days, samples_per_day,
sampling_min, gap_min)`: one `make_sample_times` call per day in
`range(days)`, results concatenated in day order. -/
def generateSchedule (start sdelta days spd samplingMin gapMin : Int) (g : Rng) :
    Except PyErr (List Int × Rng) :=
  generateScheduleAux start sdelta spd samplingMin gapMin (List.range days.toNat) g

/-- The maximal run of leading decimal digits of a character list, and the
rest. -/
def splitDigits : List Char → List Char × List Char
  | [] => ([], [])
  | c :: cs =>
    if c.isDigit then
      let (ds, rest) := splitDigits cs
      (c :: ds, rest)
    else ([], c :: cs)

/-- The numeric value of a run of decimal digits. -/
def digitsToNat (ds : List Char) : Nat :=
  ds.foldl (fun a c => a * 10 + (c.toNat - 48)) 0

/-- `time_str_to_delta(time_string)`: uppercases, strips spaces, chooses the
12-hour format `%I:%M%p` when the normalized string contains an `M` and the
24-hour format `%H:%M` otherwise, parses with `datetime.strptime` (a
`ValueError` on mismatch), and returns `timedelta(hours=h, minutes=m)` —
here the offset from midnight in minutes. `%H` accepts hours 0..23, `%I`
accepts 1..12 together with a trailing `AM`/`PM`, `%M` accepts minutes
0..59; each numeric field is one or two digits. -/
def timeStrToDelta (s : String) : Except PyErr Int :=
  let normed := (s.data.map Char.toUpper).filter (fun c => c ≠ ' ')
  let twelveHour := normed.contains 'M'
  let (hds, rest1) := splitDigits normed
  if hds.length = 0 ∨ 2 < hds.length then .error .valueError
  else
    let h := digitsToNat hds
    match rest1 with
    | ':' :: rest2 =>
      let (mds, rest3) := splitDigits rest2
      if mds.length = 0 ∨ 2 < mds.length then .error .valueError
      else
        let m := digitsToNat mds
        if 59 < m then .error .valueError
        else if twelveHour then
          if h < 1 ∨ 12 < h then .error .valueError
          else
            match rest3 with
            | ['A', 'M'] => .ok (((h % 12) * 60 + m : Nat) : Int)
            | ['P', 'M'] => .ok (((h % 12 + 12) * 60 + m : Nat) : Int)
            | _ => .error .valueError
        else
          if 23 < h then .error .valueError
          else
            match rest3 with
            | [] => .ok ((h * 60 + m : Nat) : Int)
            | _ => .error .valueError
    | _ => .error .valueError

/-- Proleptic Gregorian calendar date of a day number (days since
1970-01-01, which is day 0): year, month, day. Howard Hinnant's
`civil_from_days` algorithm, as used by `datetime.strftime`'s date
fields. -/
def civilFromDays (days : Int) : Int × Nat × Nat :=
  let z := days + 719468
  let era := Int.fdiv z 146097
  let doe := (z - era * 146097).toNat
  let yoe := (doe - doe / 1460 + doe / 36524 - doe / 146096) / 365
  let y := (yoe : Int) + era * 400
  let doy := doe - (365 * yoe + yoe / 4 - yoe / 100)
  let mp := (5 * doy + 2) / 153
  let d := doy - (153 * mp + 2) / 5 + 1
  let m := if mp < 10 then mp + 3 else mp - 9
  (if m ≤ 2 then y + 1 else y, m, d)

/-- Zero-padded two-digit decimal rendering (`%m`, `%d`, `%H`, `%M`). -/
def pad2 (n : Nat) : String :=
  if n < 10 then "0" ++ toString n else toString n

/-- Zero-padded four-digit year rendering (`%Y`). -/
def pad4 (y : Int) : String :=
  if 0 ≤ y ∧ y < 10 then "000" ++ toString y
  else if 0 ≤ y ∧ y < 100 then "00" ++ toString y
  else if 0 ≤ y ∧ y < 1000 then "0" ++ toString y
  else toString y

/-- `ema_time.strftime("%Y-%m-%d %H:%M:00")` for a datetime given in
minutes since 1970-01-01 00:00: the seconds field is the literal "00" of
the format string. -/
def strftimeSched (t : Int) : String :=
  let day := Int.fdiv t minutesPerDay
  let mins := (t - day * minutesPerDay).toNat
  let ymd := civilFromDays day
  pad4 ymd.1 ++ "-" ++ pad2 ymd.2.1 ++ "-" ++ pad2 ymd.2.2 ++ " " ++
    pad2 (mins / 60) ++ ":" ++ pad2 (mins % 60) ++ ":00"

/-- A value stored in a REDCap import row: Python puts strings and ints in
the row dicts. -/
inductive RVal where
  | str (s : String)
  | int (n : Nat)
  deriving DecidableEq, Repr

/-- A Python dict with string keys, as an insertion-ordered association
list. -/
abbrev Row := List (String × RVal)

/-- `row[k] = v` on a Python dict: updates the value in place when the key
is present (keeping its position), appends the pair otherwise. -/
def dictInsert : Row → String → RVal → Row
  | [], k, v => [(k, v)]
  | (k0, v0) :: rest, k, v =>
    if k0 = k then (k, v) :: rest
    else (k0, v0) :: dictInsert rest k v

/-- The loop body of `schedule_to_dicts`: the row built for entry number
`inum` (0-based, from `enumerate`) with timestamp `t`. -/
def mkRow (recordId recordField : String) (instrumentField eventName : Option String)
    (schedField : String) (inum : Nat) (t : Int) : Row :=
  let row : Row := []
  let row := dictInsert row recordField (.str recordId)
  let row :=
    match eventName with
    | some e => dictInsert row "redcap_event_name" (.str e)
    | none => row
  let row :=
    match instrumentField with
    | some f => dictInsert row "redcap_repeat_instrument" (.str f)
    | none => row
  let row := dictInsert row "redcap_repeat_instance" (.int (inum + 1))
  dictInsert row schedField (.str (strftimeSched t))

/-- `for instance_num, ema_time in enumerate(schedule)` with the running
index made explicit. -/
def scheduleToDictsAux (recordId recordField : String)
    (instrumentField eventName : Option String) (schedField : String) :
    Nat → List Int → List Row
  | _, [] => []
  | n, t :: ts =>
    mkRow recordId recordField instrumentField eventName schedField n t ::
      scheduleToDictsAux recordId recordField instrumentField eventName schedField (n + 1) ts

/-- `schedule_to_dicts(schedule, record_id, record_field, instrument_field,
event_name, sched_field)`: one REDCap import row per schedule entry. -/
def scheduleToDicts (schedule : List Int) (recordId recordField : String)
    (instrumentField eventName : Option String) (schedField : String) : List Row :=
  scheduleToDictsAux recordId recordField instrumentField eventName schedField 0 schedule

/-- A successful `randrange` call has a nonempty range, yields the next
stream value folded into [0, k), and advances the position by one. -/
theorem randrange_ok {k : Int} {g g' : Rng} {v : Int}
    (h : randrange k g = .ok (v, g')) :
    0 < k ∧ v = ((g.stream g.pos % k.toNat : Nat) : Int) ∧ 0 ≤ v ∧ v < k ∧
      g' = ⟨g.stream, g.pos + 1⟩ := by
  unfold randrange at h
  split at h
  · exact absurd h (by simp)
  · next hk =>
    have hkpos : 0 < k := lt_of_not_le hk
    simp only [Except.ok.injEq, Prod.mk.injEq] at h
    obtain ⟨hv, hg⟩ := h
    refine ⟨hkpos, hv.symm, ?_, ?_, hg.symm⟩
    · rw [← hv]; exact Int.natCast_nonneg _
    · rw [← hv]
      calc ((g.stream g.pos % k.toNat : Nat) : Int)
          < (k.toNat : Int) := by
            exact_mod_cast Nat.mod_lt _ (by omega)
        _ = k := Int.toNat_of_nonneg (le_of_lt hkpos)

/-- `randrange` with a positive range always succeeds, with the explicit
value and advanced state. -/
theorem randrange_run {k : Int} (hk : 0 < k) (g : Rng) :
    randrange k g = .ok (((g.stream g.pos % k.toNat : Nat) : Int), ⟨g.stream, g.pos + 1⟩) := by
  unfold randrange
  rw [if_neg (not_le.mpr hk)]

/-- What a successful offset draw guarantees: one offset per index, the
position advanced once per index, and each offset equal to its fragment
base `i * fragment_length + day_jitter` plus a residue in [0, fl). -/
theorem drawOffsets_ok {fl dj : Int} : ∀ {is : List Nat} {g g' : Rng} {out : List Int},
    drawOffsets fl dj is g = .ok (out, g') →
    out.length = is.length ∧ g' = ⟨g.stream, g.pos + is.length⟩ ∧
      ∀ (k i : Nat), is[k]? = some i →
        ∃ r : Int, 0 ≤ r ∧ r < fl ∧ out[k]? = some (r + (i : Int) * fl + dj)
  | [], g, g', out, h => by
    simp only [drawOffsets, Except.ok.injEq, Prod.mk.injEq] at h
    obtain ⟨ho, hg⟩ := h
    subst ho hg
    simp
  | i :: is, g, g', out, h => by
    rw [drawOffsets] at h
    split at h
    · cases h
    · next v g1 hr =>
      split at h
      · cases h
      · next rest g2 hd =>
        simp only [Except.ok.injEq, Prod.mk.injEq] at h
        obtain ⟨ho, hg⟩ := h
        subst ho hg
        obtain ⟨hkpos, hv, hv0, hvlt, hg1⟩ := randrange_ok hr
        obtain ⟨hlen, hg2, helts⟩ := drawOffsets_ok hd
        subst hg1
        refine ⟨by simp [hlen], by rw [hg2]; simp [Rng.mk.injEq]; omega, ?_⟩
        intro k j hj
        match k with
        | 0 =>
          simp only [List.getElem?_cons_zero, Option.some.injEq] at hj
          subst hj
          exact ⟨v, hv0, hvlt, by simp⟩
        | k + 1 =>
          simp only [List.getElem?_cons_succ] at hj ⊢
          exact helts k j hj

/-- With a positive fragment length the offset draw never fails: it
returns the explicitly indexed offsets. -/
def explicitOffsets (fl dj : Int) : List Nat → Rng → List Int
  | [], _ => []
  | i :: is, g =>
    (((g.stream g.pos % fl.toNat : Nat) : Int) + (i : Int) * fl + dj) ::
      explicitOffsets fl dj is ⟨g.stream, g.pos + 1⟩

theorem drawOffsets_run {fl dj : Int} (hfl : 0 < fl) :
    ∀ (is : List Nat) (g : Rng),
    drawOffsets fl dj is g =
      .ok (explicitOffsets fl dj is g, ⟨g.stream, g.pos + is.length⟩)
  | [], g => by simp [drawOffsets, explicitOffsets]
  | i :: is, g => by
    rw [drawOffsets, randrange_run hfl]
    dsimp only
    rw [drawOffsets_run hfl is ⟨g.stream, g.pos + 1⟩]
    dsimp only
    rw [explicitOffsets]
    simp only [Except.ok.injEq, Prod.mk.injEq, Rng.mk.injEq, List.length_cons]
    exact ⟨trivial, trivial, by omega⟩

theorem foldl_min_le_init : ∀ (xs : List Int) (a : Int), xs.foldl min a ≤ a
  | [], _ => le_refl _
  | x :: xs, a => le_trans (foldl_min_le_init xs (min a x)) (min_le_left a x)

theorem foldl_min_le_mem : ∀ (xs : List Int) (a x : Int), x ∈ xs → xs.foldl min a ≤ x
  | y :: xs, a, x, hx => by
    rcases List.mem_cons.mp hx with h | h
    · subst h
      exact le_trans (foldl_min_le_init xs (min a x)) (min_le_right a x)
    · exact foldl_min_le_mem xs (min a y) x h

theorem foldl_min_cases : ∀ (xs : List Int) (a : Int), xs.foldl min a = a ∨ xs.foldl min a ∈ xs
  | [], a => Or.inl rfl
  | x :: xs, a => by
    rcases foldl_min_cases xs (min a x) with h | h
    · rw [List.foldl_cons, h]
      rcases min_choice a x with h' | h'
      · exact Or.inl h'
      · exact Or.inr (by rw [h']; exact List.mem_cons_self x xs)
    · exact Or.inr (List.mem_cons_of_mem x h)

/-- Python's `min` of a nonempty list is a member and a lower bound. -/
theorem listMin_spec : ∀ {l : List Int} {m : Int}, listMin l = some m →
    m ∈ l ∧ ∀ x ∈ l, m ≤ x
  | x :: xs, m, h => by
    simp only [listMin, Option.some.injEq] at h
    subst h
    constructor
    · rcases foldl_min_cases xs x with h | h
      · rw [h]; exact List.mem_cons_self x xs
      · exact List.mem_cons_of_mem x h
    · intro y hy
      rcases List.mem_cons.mp hy with h | h
      · exact h ▸ foldl_min_le_init xs x
      · exact foldl_min_le_mem xs x y h

theorem consecDiffs_cons (a b : Int) (t : List Int) :
    consecDiffs (a :: b :: t) = (b - a) :: consecDiffs (b :: t) := rfl

/-- The k-th consecutive difference is `l[k+1] - l[k]`. -/
theorem consecDiffs_getElem? : ∀ {l : List Int} {k : Nat} {a b : Int},
    l[k]? = some a → l[k + 1]? = some b → (consecDiffs l)[k]? = some (b - a)
  | x :: y :: t, 0, a, b, ha, hb => by
    simp only [List.getElem?_cons_zero, Option.some.injEq] at ha
    simp only [List.getElem?_cons_succ, List.getElem?_cons_zero, Option.some.injEq] at hb
    subst ha hb
    rw [consecDiffs_cons]
    simp
  | x :: y :: t, k + 1, a, b, ha, hb => by
    rw [List.getElem?_cons_succ] at ha hb
    rw [consecDiffs_cons, List.getElem?_cons_succ]
    exact consecDiffs_getElem? ha hb
  | [x], k, a, b, ha, hb => by
    rcases k with _ | k <;> simp at hb
  | [], k, a, b, ha, hb => by simp at ha

/-- Every consecutive difference arises from an adjacent index pair. -/
theorem consecDiffs_mem : ∀ {l : List Int} {x : Int}, x ∈ consecDiffs l →
    ∃ k a b, l[k]? = some a ∧ l[k + 1]? = some b ∧ x = b - a
  | a :: b :: t, x, hx => by
    rw [consecDiffs_cons] at hx
    rcases List.mem_cons.mp hx with h | h
    · exact ⟨0, a, b, by simp, by simp, h⟩
    · obtain ⟨k, a', b', ha, hb, hx'⟩ := consecDiffs_mem h
      exact ⟨k + 1, a', b', by simpa using ha, by simpa using hb, hx'⟩
  | [a], x, hx => by simp [consecDiffs] at hx
  | [], x, hx => by simp [consecDiffs] at hx

/-- `consecDiffs` of a list of two or more elements is nonempty. -/
theorem consecDiffs_ne_nil {l : List Int} (h : 2 ≤ l.length) : consecDiffs l ≠ [] := by
  match l, h with
  | a :: b :: t, _ => rw [consecDiffs_cons]; simp

/-- The retry loop never reports more attempts than its budget. -/
theorem attemptLoop_attempts_le {ns gap fl dj : Int} :
    ∀ {fuel : Nat} {g g' : Rng} {res : Option (List Int)} {n : Nat},
    attemptLoop ns gap fl dj fuel g = .ok (res, n, g') → n ≤ fuel
  | 0, g, g', res, n, h => by
    simp only [attemptLoop, Except.ok.injEq, Prod.mk.injEq] at h
    omega
  | fuel + 1, g, g', res, n, h => by
    rw [attemptLoop] at h
    split at h
    · cases h
    · next offs g1 hd =>
      split at h
      · simp only [Except.ok.injEq, Prod.mk.injEq] at h
        omega
      · split at h
        · cases h
        · next m hm =>
          split at h
          · simp only [Except.ok.injEq, Prod.mk.injEq] at h
            omega
          · split at h
            · cases h
            · next res' n' g2 hrec =>
              simp only [Except.ok.injEq, Prod.mk.injEq] at h
              have := attemptLoop_attempts_le hrec
              omega

/-- A successful loop result comes from one successful offset draw (from
some later position of the same stream) that passed the acceptance test:
either a single sample, or a minimal consecutive difference exceeding the
gap. -/
theorem attemptLoop_ok_some {ns gap fl dj : Int} :
    ∀ {fuel : Nat} {g g' : Rng} {out : List Int} {n : Nat},
    attemptLoop ns gap fl dj fuel g = .ok (some out, n, g') →
    ∃ gs : Rng, gs.stream = g.stream ∧
      drawOffsets fl dj (List.range ns.toNat) gs = .ok (out, g') ∧
      (ns = 1 ∨ (ns ≠ 1 ∧ ∃ m, listMin (consecDiffs out) = some m ∧ gap < m))
  | 0, g, g', out, n, h => by
    simp only [attemptLoop, Except.ok.injEq, Prod.mk.injEq] at h
    cases h.1
  | fuel + 1, g, g', out, n, h => by
    rw [attemptLoop] at h
    split at h
    · cases h
    · next offs g1 hd =>
      split at h
      · next hns =>
        simp only [Except.ok.injEq, Prod.mk.injEq, Option.some.injEq] at h
        obtain ⟨ho, -, hg⟩ := h
        subst ho hg
        exact ⟨g, rfl, hd, Or.inl hns⟩
      · next hns =>
        split at h
        · cases h
        · next m hm =>
          split at h
          · next hgap =>
            simp only [Except.ok.injEq, Prod.mk.injEq, Option.some.injEq] at h
            obtain ⟨ho, -, hg⟩ := h
            subst ho hg
            exact ⟨g, rfl, hd, Or.inr ⟨hns, m, hm, hgap⟩⟩
          · split at h
            · cases h
            · next res' n' g2 hrec =>
              simp only [Except.ok.injEq, Prod.mk.injEq] at h
              obtain ⟨ho, -, hg⟩ := h
              subst hg
              cases res' with
              | none => cases ho
              | some out' =>
                cases ho
                obtain ⟨hg1, hg1s⟩ := drawOffsets_ok hd
                obtain ⟨gs, hs, hdr, hacc⟩ := attemptLoop_ok_some hrec
                exact ⟨gs, by rw [hs, hg1s.1], hdr, hacc⟩

/-- When the freshly drawn offsets pass the acceptance test, the loop
accepts them as its first attempt. -/
theorem attemptLoop_accept {ns gap fl dj : Int} {fuel : Nat} {g g1 : Rng} {out : List Int}
    (hd : drawOffsets fl dj (List.range ns.toNat) g = .ok (out, g1))
    (hacc : ns = 1 ∨ ∃ m, listMin (consecDiffs out) = some m ∧ gap < m) :
    attemptLoop ns gap fl dj (fuel + 1) g = .ok (some out, 1, g1) := by
  rw [attemptLoop, hd]
  dsimp only
  rcases hacc with hns | ⟨m, hm, hgap⟩
  · rw [if_pos hns]
  · by_cases hns : ns = 1
    · rw [if_pos hns]
    · rw [if_neg hns, hm]
      dsimp only
      rw [if_pos hgap]

/-- A successful `random_minute_offsets` call implies a nonnegative jitter
budget, a nonzero sample count, and a successful run of the retry loop on
the stream advanced past the single jitter draw, with `day_jitter` the
value of that draw. -/
theorem rmo_ok {ns tm gap js : Int} {g g' : Rng} {res : Option (List Int)} {n : Nat}
    (h : randomMinuteOffsets ns tm gap js g = .ok (res, n, g')) :
    0 ≤ gap * js ∧ ns ≠ 0 ∧
      attemptLoop ns gap (Int.fdiv (tm - gap * js) ns)
        ((g.stream g.pos % (gap * js + 1).toNat : Nat) : Int) MAX_ITERS
        ⟨g.stream, g.pos + 1⟩ = .ok (res, n, g') := by
  rw [randomMinuteOffsets] at h
  split at h
  · cases h
  · next dj g1 hr =>
    obtain ⟨hkpos, hv, -, -, hg1⟩ := randrange_ok hr
    split at h
    · cases h
    · next hns =>
      subst hv hg1
      exact ⟨by omega, hns, h⟩

/-- With a nonzero sample count and a nonnegative jitter budget,
`random_minute_offsets` is exactly the retry loop run after the jitter
draw. -/
theorem rmo_run {ns tm gap js : Int} (g : Rng) (hdj : 0 ≤ gap * js) (hns : ns ≠ 0) :
    randomMinuteOffsets ns tm gap js g =
      attemptLoop ns gap (Int.fdiv (tm - gap * js) ns)
        ((g.stream g.pos % (gap * js + 1).toNat : Nat) : Int) MAX_ITERS
        ⟨g.stream, g.pos + 1⟩ := by
  rw [randomMinuteOffsets, randrange_run (by omega)]
  dsimp only
  rw [if_neg hns]

/-- With the default `day_jitter_scale = 0` the jitter draw is the constant
zero and the usable window is the whole window. -/
theorem rmo_run_zero {ns tm gap : Int} (g : Rng) (hns : ns ≠ 0) :
    randomMinuteOffsets ns tm gap 0 g =
      attemptLoop ns gap (Int.fdiv tm ns) 0 MAX_ITERS ⟨g.stream, g.pos + 1⟩ := by
  have h := @rmo_run ns tm gap 0 g (by simp) hns
  simpa using h

/-- A successful call with `day_jitter_scale = 0` is a successful loop run
with fragment length `total_minutes // num_samples` and zero jitter. -/
theorem rmo_ok_zero {ns tm gap : Int} {g g' : Rng} {res : Option (List Int)} {n : Nat}
    (h : randomMinuteOffsets ns tm gap 0 g = .ok (res, n, g')) :
    ns ≠ 0 ∧
      attemptLoop ns gap (Int.fdiv tm ns) 0 MAX_ITERS ⟨g.stream, g.pos + 1⟩ =
        .ok (res, n, g') := by
  obtain ⟨-, hns, hl⟩ := rmo_ok h
  refine ⟨hns, ?_⟩
  rw [rmo_run_zero g hns] at h
  exact h

/-- Returning an accepted offset list forces a positive sample count: with
`num_samples < 0` the offset list is empty and Python's `min([])` raises,
and `num_samples == 0` raises on the fragment division. -/
theorem rmo_some_ns_pos {ns tm gap : Int} {g g' : Rng} {out : List Int} {n : Nat}
    (h : randomMinuteOffsets ns tm gap 0 g = .ok (some out, n, g')) : 0 < ns := by
  obtain ⟨hns, hl⟩ := rmo_ok_zero h
  by_contra hle
  have hneg : ns < 0 := by omega
  have htn : ns.toNat = 0 := by omega
  rw [show MAX_ITERS = 999 + 1 from rfl, attemptLoop, htn] at hl
  rw [show List.range 0 = [] from rfl, drawOffsets] at hl
  dsimp only at hl
  rw [if_neg (by omega : ¬ ns = 1)] at hl
  rw [show listMin (consecDiffs []) = none from rfl] at hl
  dsimp only at hl
  cases hl

/-- The heart of the Window Sampler's guarantee, for the default zero
jitter: a successful call has a positive sample count and fragment length,
returns one offset per fragment (`r + k * fragment_length` with the
residue `r` in [0, fragment_length)), and, unless there is a single sample,
its minimal consecutive difference exceeds the gap. -/
theorem rmo_success_core {ns tm gap : Int} {g g' : Rng} {out : List Int} {n : Nat}
    (h : randomMinuteOffsets ns tm gap 0 g = .ok (some out, n, g')) :
    0 < ns ∧ 0 < Int.fdiv tm ns ∧ out.length = ns.toNat ∧
      (∀ k : Nat, k < ns.toNat → ∃ r : Int, 0 ≤ r ∧ r < Int.fdiv tm ns ∧
        out[k]? = some (r + (k : Int) * Int.fdiv tm ns)) ∧
      (ns ≠ 1 → ∃ m, listMin (consecDiffs out) = some m ∧ gap < m) := by
  have hpos := rmo_some_ns_pos h
  obtain ⟨hns, hl⟩ := rmo_ok_zero h
  obtain ⟨gs, hgs, hdr, hacc⟩ := attemptLoop_ok_some hl
  obtain ⟨hlen, -, helts⟩ := drawOffsets_ok hdr
  have htn : 1 ≤ ns.toNat := by omega
  have hfl : 0 < Int.fdiv tm ns := by
    obtain ⟨r, hr0, hrlt, -⟩ := helts 0 0 (by
      rw [List.getElem?_range (by omega)])
    omega
  refine ⟨hpos, hfl, by rw [hlen, List.length_range], ?_, ?_⟩
  · intro k hk
    obtain ⟨r, hr0, hrlt, hout⟩ := helts k k (by rw [List.getElem?_range hk])
    exact ⟨r, hr0, hrlt, by rw [hout]; ring_nf⟩
  · intro hne
    rcases hacc with h1 | ⟨-, hmin⟩
    · exact absurd h1 hne
    · exact hmin

/-- The Window Sampler guarantee, packaged for reuse: a successful
zero-jitter call returns `ns.toNat` offsets in [0, tm), strictly
increasing, with consecutive differences above the gap when there is more
than one sample. -/
theorem rmo_success_props {ns tm gap : Int} {g g' : Rng} {out : List Int} {n : Nat}
    (h : randomMinuteOffsets ns tm gap 0 g = .ok (some out, n, g')) :
    out.length = ns.toNat ∧
      (∀ x ∈ out, 0 ≤ x ∧ x < tm) ∧
      List.Chain' (fun a b : Int => a < b) out ∧
      (1 < ns → ∀ (k : Nat) (a b : Int), out[k]? = some a → out[k + 1]? = some b →
        gap < b - a) := by
  obtain ⟨hpos, hfl, hlen, helts, hmin⟩ := rmo_success_core h
  have hnsfl : ns * Int.fdiv tm ns ≤ tm := by
    have hq := Int.fmod_add_fdiv tm ns
    have hnn := Int.fmod_nonneg' tm hpos
    linarith
  have hcast : ((ns.toNat : Int)) = ns := Int.toNat_of_nonneg hpos.le
  have hval : ∀ (k : Nat) (a : Int), out[k]? = some a →
      ∃ r : Int, 0 ≤ r ∧ r < Int.fdiv tm ns ∧ a = r + (k : Int) * Int.fdiv tm ns := by
    intro k a ha
    have hk : k < out.length := by
      obtain ⟨hk, -⟩ := List.getElem?_eq_some.mp ha
      exact hk
    obtain ⟨r, hr0, hrlt, hout⟩ := helts k (by omega)
    rw [ha] at hout
    exact ⟨r, hr0, hrlt, Option.some.inj hout⟩
  have hub : ∀ (k : Nat) (a : Int), out[k]? = some a → 0 ≤ a ∧ a < tm := by
    intro k a ha
    obtain ⟨r, hr0, hrlt, he⟩ := hval k a ha
    have hk : k < out.length := (List.getElem?_eq_some.mp ha).1
    have hkns : (k : Int) + 1 ≤ ns := by
      have : k + 1 ≤ ns.toNat := by omega
      calc (k : Int) + 1 = ((k + 1 : Nat) : Int) := by push_cast; ring
        _ ≤ (ns.toNat : Int) := by exact_mod_cast this
        _ = ns := hcast
    have hmul : ((k : Int) + 1) * Int.fdiv tm ns ≤ ns * Int.fdiv tm ns :=
      mul_le_mul_of_nonneg_right hkns hfl.le
    constructor
    · have : 0 ≤ (k : Int) * Int.fdiv tm ns :=
        mul_nonneg (Int.natCast_nonneg k) hfl.le
      omega
    · have hep : ((k : Int) + 1) * Int.fdiv tm ns =
          (k : Int) * Int.fdiv tm ns + Int.fdiv tm ns := by ring
      linarith
  have hadj : ∀ (k : Nat) (a b : Int), out[k]? = some a → out[k + 1]? = some b →
      a < b := by
    intro k a b ha hb
    obtain ⟨r, hr0, hrlt, he⟩ := hval k a ha
    obtain ⟨r', hr0', hrlt', he'⟩ := hval (k + 1) b hb
    have hep : ((k : Int) + 1) * Int.fdiv tm ns =
        (k : Int) * Int.fdiv tm ns + Int.fdiv tm ns := by ring
    have hc : ((k + 1 : Nat) : Int) = (k : Int) + 1 := by push_cast; ring
    rw [hc] at he'
    linarith
  refine ⟨hlen, ?_, ?_, ?_⟩
  · intro x hx
    obtain ⟨k, hk⟩ := List.mem_iff_get?.mp hx
    rw [List.get?_eq_getElem?] at hk
    exact hub k x hk
  · rw [List.chain'_iff_get]
    intro i hi
    have h1 : out[i]? = some (out.get ⟨i, by omega⟩) := by
      rw [List.get_eq_getElem, List.getElem?_eq_getElem]
    have h2 : out[i + 1]? = some (out.get ⟨i + 1, by omega⟩) := by
      rw [List.get_eq_getElem, List.getElem?_eq_getElem]
    exact hadj i _ _ h1 h2
  · intro hgt k a b ha hb
    obtain ⟨m, hm, hgap⟩ := hmin (by omega)
    have hd := consecDiffs_getElem? ha hb
    have hmem : (b - a) ∈ consecDiffs out := List.getElem?_mem hd
    have := (listMin_spec hm).2 _ hmem
    linarith

/-- C1: For every feasible valid configuration (sample_count >= 1, and
total_minutes, gap_minutes such that an accepting placement is reached), a
successful call of the Window Sampler (random_minute_offsets) returns
exactly sample_count minute offsets, each in the range [0, total_minutes),
strictly increasing, and with every consecutive difference strictly
greater than gap_minutes (when sample_count > 1). -/
theorem claim_c1 (ns tm gap : Int) (g g' : Rng) (out : List Int) (n : Nat)
    (_hns : 1 ≤ ns)
    (h : randomMinuteOffsets ns tm gap 0 g = .ok (some out, n, g')) :
    out.length = ns.toNat ∧
      (∀ x ∈ out, 0 ≤ x ∧ x < tm) ∧
      List.Chain' (fun a b : Int => a < b) out ∧
      (1 < ns → ∀ (k : Nat) (a b : Int), out[k]? = some a → out[k + 1]? = some b →
        gap < b - a) :=
  rmo_success_props h

/-- C1 witness: the call `random_minute_offsets(2, 10, 1)` on the all-zero
stream accepts `[0, 5]` at the first attempt; the guarantees hold there. -/
theorem claim_c1_witness :
    (1 : Int) ≤ 2 ∧
      ([0, 5] : List Int).length = (2 : Int).toNat ∧
      (∀ x ∈ ([0, 5] : List Int), 0 ≤ x ∧ x < 10) ∧
      List.Chain' (fun a b : Int => a < b) [0, 5] ∧
      ((1 : Int) < 2 → ∀ (k : Nat) (a b : Int), ([0, 5] : List Int)[k]? = some a →
        ([0, 5] : List Int)[k + 1]? = some b → 1 < b - a) :=
  ⟨by norm_num,
    claim_c1 2 10 1 ⟨fun _ => 0, 0⟩ ⟨fun _ => 0, 3⟩ [0, 5] 1 (by norm_num) rfl⟩

/-- With fragment length 1 and zero jitter every drawn offset is forced to
its fragment base: the draw is deterministic whatever the stream holds. -/
theorem explicitOffsets_one_zero : ∀ (is : List Nat) (g : Rng),
    explicitOffsets 1 0 is g = is.map (fun i => (i : Int))
  | [], _ => rfl
  | i :: is, g => by
    rw [explicitOffsets, explicitOffsets_one_zero is]
    simp [Nat.mod_one]

/-- In the infeasible configuration `(10 samples, 10 minutes, gap 5)` the
fragment length is 1, every attempt produces the offsets 0..9 whose
consecutive differences are all 1, the gap test `1 > 5` always fails, and
the loop burns its whole budget: `fuel` rejected attempts, 10 draws each. -/
theorem attemptLoop_exhaust_10 : ∀ (fuel : Nat) (g : Rng),
    attemptLoop 10 5 1 0 fuel g = .ok (none, fuel, ⟨g.stream, g.pos + 10 * fuel⟩)
  | 0, g => by simp [attemptLoop]
  | fuel + 1, g => by
    rw [attemptLoop]
    rw [show ((10 : Int).toNat) = 10 from rfl]
    rw [drawOffsets_run (by decide) (List.range 10) g]
    dsimp only
    rw [explicitOffsets_one_zero]
    rw [show (List.range 10).map (fun i => (i : Int)) = [0, 1, 2, 3, 4, 5, 6, 7, 8, 9]
      from by decide]
    rw [if_neg (by decide : ¬ (10 : Int) = 1)]
    rw [show listMin (consecDiffs [0, 1, 2, 3, 4, 5, 6, 7, 8, 9]) = some 1 from by decide]
    dsimp only
    rw [if_neg (by decide : ¬ (5 : Int) < 1)]
    rw [show ((List.range 10).length : Nat) = 10 from rfl]
    rw [attemptLoop_exhaust_10 fuel ⟨g.stream, g.pos + 10⟩]
    dsimp only
    simp only [Except.ok.injEq, Prod.mk.injEq, Rng.mk.injEq]
    exact ⟨trivial, trivial, trivial, by omega⟩

/-- The spec's exhaustion scenario: `random_minute_offsets(10, 10, 5)`
fails with `None` after exactly 1000 attempts, for every state of the
random source, consuming the jitter draw plus 10 draws per attempt. -/
theorem rmo_exhaust_10_10_5 (g : Rng) :
    randomMinuteOffsets 10 10 5 0 g = .ok (none, 1000, ⟨g.stream, g.pos + 10001⟩) := by
  rw [rmo_run_zero g (by decide)]
  rw [show Int.fdiv 10 10 = 1 from by decide]
  rw [show MAX_ITERS = 1000 from rfl]
  rw [attemptLoop_exhaust_10 1000 ⟨g.stream, g.pos + 1⟩]

/-- C4: The Window Sampler's retry loop performs at most MAX_ITERS = 1000
total attempts and then terminates; for the infeasible configuration
sample_count=10, total_minutes=10, gap_minutes=5 it fails (returns `None`)
after exactly 1000 attempts, whatever the random stream holds — it retries
blindly without detecting infeasibility analytically. -/
theorem claim_c4 :
    (∀ (ns tm gap js : Int) (g g' : Rng) (res : Option (List Int)) (n : Nat),
      randomMinuteOffsets ns tm gap js g = .ok (res, n, g') → n ≤ MAX_ITERS) ∧
    (∀ g : Rng, randomMinuteOffsets 10 10 5 0 g =
      .ok (none, 1000, ⟨g.stream, g.pos + 10001⟩)) := by
  constructor
  · intro ns tm gap js g g' res n h
    obtain ⟨-, -, hl⟩ := rmo_ok h
    exact attemptLoop_attempts_le hl
  · exact rmo_exhaust_10_10_5

/-- C4 witness: the exhaustion run on the all-zero stream, and the attempt
bound discharged on it. -/
theorem claim_c4_witness :
    randomMinuteOffsets 10 10 5 0 ⟨fun _ => 0, 0⟩ =
      .ok (none, 1000, ⟨fun _ => 0, 10001⟩) ∧ (1000 : Nat) ≤ MAX_ITERS := by
  constructor
  · have h := claim_c4.2 ⟨fun _ => 0, 0⟩
    simpa using h
  · exact claim_c4.1 10 10 5 0 ⟨fun _ => 0, 0⟩ ⟨fun _ => 0, 10001⟩ none 1000
      (by simpa using claim_c4.2 ⟨fun _ => 0, 0⟩)

/-- C2: When no attempt within the retry budget satisfies the gap
constraint, the Window Sampler fails (returns `None`, which the first
caller turns into an exception when it iterates over it) rather than
returning a result, and this failure propagates up through the Daily
Schedule Builder (make_sample_times) and the Multi-Day Schedule Generator
(generate_schedule), aborting the whole generation with no partial
schedule ever returned to the caller. -/
theorem claim_c2 (ns tm gap : Int) (g g' : Rng) (n : Nat)
    (hex : randomMinuteOffsets ns tm gap 0 g = .ok (none, n, g')) :
    randomTimedeltas ns tm gap g = .error .typeError ∧
      (∀ date sdelta : Int, makeSampleTimes date sdelta ns tm gap g = .error .typeError) ∧
      (∀ start sdelta days : Int, 1 ≤ days →
        generateSchedule start sdelta days ns tm gap g = .error .typeError) := by
  have h1 : randomTimedeltas ns tm gap g = .error .typeError := by
    rw [randomTimedeltas, hex]
  have h2 : ∀ date sdelta : Int,
      makeSampleTimes date sdelta ns tm gap g = .error .typeError := by
    intro date sdelta
    rw [makeSampleTimes, h1]
  refine ⟨h1, h2, ?_⟩
  intro start sdelta days hdays
  rw [generateSchedule]
  have hk : days.toNat = (days.toNat - 1) + 1 := by omega
  rw [hk, List.range_succ_eq_map, generateScheduleAux, h2]

/-- C2 witness: with the infeasible configuration (10, 10, 5) on the
all-zero stream, the sampler exhausts and every composed caller fails. -/
theorem claim_c2_witness :
    randomTimedeltas 10 10 5 ⟨fun _ => 0, 0⟩ = .error .typeError ∧
      makeSampleTimes 0 540 10 10 5 ⟨fun _ => 0, 0⟩ = .error .typeError ∧
      generateSchedule 0 540 2 10 10 5 ⟨fun _ => 0, 0⟩ = .error .typeError := by
  obtain ⟨h1, h2, h3⟩ := claim_c2 10 10 5 ⟨fun _ => 0, 0⟩ _ 1000
    (rmo_exhaust_10_10_5 ⟨fun _ => 0, 0⟩)
  exact ⟨h1, h2 0 540, h3 0 540 2 (by norm_num)⟩

/-- `timedelta(minutes=ofs)` is the identity on minute counts, so the
wrapping map does nothing. -/
theorem timedeltas_map_id (offs : List Int) : offs.map timedeltaOfMinutes = offs :=
  List.map_id'' (fun _ => rfl) offs

/-- A successful `random_timedeltas` call is a successful accepted
`random_minute_offsets` call with the same offsets. -/
theorem randomTimedeltas_ok {ns tm gap : Int} {g g' : Rng} {ds : List Int}
    (h : randomTimedeltas ns tm gap g = .ok (ds, g')) :
    ∃ n : Nat, randomMinuteOffsets ns tm gap 0 g = .ok (some ds, n, g') := by
  rw [randomTimedeltas] at h
  split at h
  · cases h
  · cases h
  · next offs n g1 hr =>
    simp only [Except.ok.injEq, Prod.mk.injEq] at h
    obtain ⟨hds, hg⟩ := h
    subst hg
    rw [timedeltas_map_id] at hds
    subst hds
    exact ⟨n, hr⟩

/-- The Daily Schedule Builder's guarantee: a successful
`make_sample_times` call returns `samples` timestamps for its date,
strictly increasing, all within `[date + start_delta,
date + start_delta + sampling_min)`. -/
theorem makeSampleTimes_ok {date sdelta spd tm gap : Int} {g g' : Rng} {ts : List Int}
    (h : makeSampleTimes date sdelta spd tm gap g = .ok (ts, g')) :
    ts.length = spd.toNat ∧ List.Chain' (fun a b : Int => a < b) ts ∧
      ∀ t ∈ ts, date + sdelta ≤ t ∧ t < date + sdelta + tm := by
  rw [makeSampleTimes] at h
  split at h
  · cases h
  · next ds g1 hrt =>
    simp only [Except.ok.injEq, Prod.mk.injEq] at h
    obtain ⟨hts, hg⟩ := h
    subst hg
    obtain ⟨n, hrmo⟩ := randomTimedeltas_ok hrt
    obtain ⟨hlen, hbnd, hchain, -⟩ := rmo_success_props hrmo
    subst hts
    refine ⟨by simp [hlen], ?_, ?_⟩
    · rw [List.chain'_map]
      exact List.Chain'.imp (fun a b hab => by omega) hchain
    · intro t ht
      obtain ⟨d, hd, rfl⟩ := List.mem_map.mp ht
      obtain ⟨hd0, hdlt⟩ := hbnd d hd
      constructor <;> omega

/-- The generation loop over a list of day indices: each day contributes
one block of `spd` strictly increasing timestamps anchored at
`start + d * minutesPerDay + sdelta`, and the schedule is the
concatenation of the blocks in day order. -/
theorem generateScheduleAux_ok {start sdelta spd tm gap : Int} :
    ∀ {ds : List Nat} {g g' : Rng} {sched : List Int},
    generateScheduleAux start sdelta spd tm gap ds g = .ok (sched, g') →
    sched.length = ds.length * spd.toNat ∧
    ∃ blocks : List (List Int), sched = blocks.flatten ∧ blocks.length = ds.length ∧
      ∀ (k d : Nat) (block : List Int), ds[k]? = some d → blocks[k]? = some block →
        block.length = spd.toNat ∧ List.Chain' (fun a b : Int => a < b) block ∧
        ∀ t ∈ block, start + (d : Int) * minutesPerDay + sdelta ≤ t ∧
          t < start + (d : Int) * minutesPerDay + sdelta + tm
  | [], g, g', sched, h => by
    simp only [generateScheduleAux, Except.ok.injEq, Prod.mk.injEq] at h
    obtain ⟨hs, hg⟩ := h
    subst hg
    refine ⟨by simp [← hs], [], by simp [← hs], by simp, ?_⟩
    intro k d block hk hb
    simp at hk
  | d :: ds, g, g', sched, h => by
    rw [generateScheduleAux] at h
    split at h
    · cases h
    · next ts g1 hmk =>
      split at h
      · cases h
      · next rest g2 hrec =>
        simp only [Except.ok.injEq, Prod.mk.injEq] at h
        obtain ⟨hs, hg⟩ := h
        subst hg
        obtain ⟨hlen1, hch1, hbnd1⟩ := makeSampleTimes_ok hmk
        obtain ⟨hlenr, blocks, hflat, hblen, hprops⟩ := generateScheduleAux_ok hrec
        subst hflat
        refine ⟨?_, ts :: blocks, by simp [← hs], by simp [hblen], ?_⟩
        · rw [← hs]
          simp only [List.length_append, List.length_flatten, List.length_cons, hlen1]
          have : (blocks.map List.length).sum = ds.length * spd.toNat := by
            have := hlenr
            simpa using this
          rw [this]
          ring
        · intro k dd block hk hb
          match k with
          | 0 =>
            simp only [List.getElem?_cons_zero, Option.some.injEq] at hk hb
            subst hk hb
            exact ⟨hlen1, hch1, hbnd1⟩
          | k + 1 =>
            simp only [List.getElem?_cons_succ] at hk hb
            exact hprops k dd block hk hb

/-- C3: For every start date, start offset, days >= 0 and sampler
parameters for which every per-day build succeeds, the Multi-Day Schedule
Generator (generate_schedule) returns exactly days * samples_per_day
timestamps, ordered day-major: the schedule is the concatenation of one
block per day index d (in ascending d order, day d built on calendar date
start_date + d days), and within each day the timestamps are in ascending
time order, each lying in the day's sampling window. -/
theorem claim_c3 (start sdelta days spd tm gap : Int) (g g' : Rng) (sched : List Int)
    (h : generateSchedule start sdelta days spd tm gap g = .ok (sched, g')) :
    sched.length = days.toNat * spd.toNat ∧
    ∃ blocks : List (List Int), sched = blocks.flatten ∧ blocks.length = days.toNat ∧
      ∀ d : Nat, d < days.toNat → ∃ block : List Int, blocks[d]? = some block ∧
        block.length = spd.toNat ∧ List.Chain' (fun a b : Int => a < b) block ∧
        ∀ t ∈ block, start + (d : Int) * minutesPerDay + sdelta ≤ t ∧
          t < start + (d : Int) * minutesPerDay + sdelta + tm := by
  rw [generateSchedule] at h
  obtain ⟨hlen, blocks, hflat, hblen, hprops⟩ := generateScheduleAux_ok h
  rw [List.length_range] at hlen hblen
  refine ⟨hlen, blocks, hflat, hblen, ?_⟩
  intro d hd
  have hbd : d < blocks.length := by omega
  refine ⟨blocks[d], List.getElem?_eq_getElem hbd, ?_⟩
  exact hprops d d blocks[d] (List.getElem?_range hd) (List.getElem?_eq_getElem hbd)

/-- C3 witness: a one-day, one-sample schedule on the all-zero stream. -/
theorem claim_c3_witness :
    ([540] : List Int).length = (1 : Int).toNat * (1 : Int).toNat ∧
    ∃ blocks : List (List Int), ([540] : List Int) = blocks.flatten ∧
      blocks.length = (1 : Int).toNat ∧
      ∀ d : Nat, d < (1 : Int).toNat → ∃ block : List Int, blocks[d]? = some block ∧
        block.length = (1 : Int).toNat ∧ List.Chain' (fun a b : Int => a < b) block ∧
        ∀ t ∈ block, 0 + (d : Int) * minutesPerDay + 540 ≤ t ∧
          t < 0 + (d : Int) * minutesPerDay + 540 + 600 :=
  claim_c3 0 540 1 1 600 60 ⟨fun _ => 0, 0⟩ ⟨fun _ => 0, 2⟩ [540] rfl

/-- C5: In every call of the Window Sampler, day_jitter is drawn exactly
once — from the single stream position preceding the retry loop, uniformly
over the inclusive integer range [0, gap_minutes * jitter_scale] — the
whole loop then runs with that one constant day_jitter (rejected attempts
re-draw the per-fragment offsets from later stream positions but never the
jitter), and it is added identically to every sample offset of the call:
each accepted offset is `r + i * fragment_length + day_jitter`. -/
theorem claim_c5 (ns tm gap js : Int) (g g' : Rng) (res : Option (List Int)) (n : Nat)
    (h : randomMinuteOffsets ns tm gap js g = .ok (res, n, g')) :
    ∃ dj : Int,
      dj = ((g.stream g.pos % (gap * js + 1).toNat : Nat) : Int) ∧
      0 ≤ dj ∧ dj ≤ gap * js ∧
      attemptLoop ns gap (Int.fdiv (tm - gap * js) ns) dj MAX_ITERS
        ⟨g.stream, g.pos + 1⟩ = .ok (res, n, g') ∧
      (∀ out : List Int, res = some out →
        ∀ (k i : Nat), (List.range ns.toNat)[k]? = some i →
          ∃ r : Int, 0 ≤ r ∧ r < Int.fdiv (tm - gap * js) ns ∧
            out[k]? = some (r + (i : Int) * Int.fdiv (tm - gap * js) ns + dj)) := by
  obtain ⟨hjn, hns, hl⟩ := rmo_ok h
  refine ⟨_, rfl, Int.natCast_nonneg _, ?_, hl, ?_⟩
  · have hmod : g.stream g.pos % (gap * js + 1).toNat < (gap * js + 1).toNat :=
      Nat.mod_lt _ (by omega)
    have := Int.toNat_of_nonneg (by omega : (0 : Int) ≤ gap * js + 1)
    omega
  · intro out hres k i hk
    subst hres
    obtain ⟨gs, hgs, hdr, -⟩ := attemptLoop_ok_some hl
    obtain ⟨-, -, helts⟩ := drawOffsets_ok hdr
    exact helts k i hk

/-- C5 witness: a one-sample call with jitter_scale 1 and gap 2 on the
constant-5 stream: the jitter draw is 5 mod 3 = 2, and the single offset
is 5 + 0 + 2 = 7. -/
theorem claim_c5_witness :
    ∃ dj : Int,
      dj = (((fun _ : Nat => 5) 0 % ((2 : Int) * 1 + 1).toNat : Nat) : Int) ∧
      0 ≤ dj ∧ dj ≤ (2 : Int) * 1 ∧
      attemptLoop 1 2 (Int.fdiv ((10 : Int) - 2 * 1) 1) dj MAX_ITERS
        ⟨fun _ => 5, 0 + 1⟩ = .ok (some [7], 1, ⟨fun _ => 5, 2⟩) ∧
      (∀ out : List Int, (some [7] : Option (List Int)) = some out →
        ∀ (k i : Nat), (List.range ((1 : Int)).toNat)[k]? = some i →
          ∃ r : Int, 0 ≤ r ∧ r < Int.fdiv ((10 : Int) - 2 * 1) 1 ∧
            out[k]? = some (r + (i : Int) * Int.fdiv ((10 : Int) - 2 * 1) 1 + dj)) :=
  claim_c5 1 10 2 1 ⟨fun _ => 5, 0⟩ ⟨fun _ => 5, 2⟩ (some [7]) 1 rfl

/-- C6: When sample_count == 1, the Window Sampler accepts the very first
draw immediately without applying any gap check — the gap is arbitrary
here, even larger than the window — so it always succeeds on attempt 1
(consuming the jitter draw and one offset draw) and the single returned
offset lies in [0, total_minutes). -/
theorem claim_c6 (tm gap : Int) (g : Rng) (htm : 1 ≤ tm) :
    ∃ x : Int, 0 ≤ x ∧ x < tm ∧
      randomMinuteOffsets 1 tm gap 0 g =
        .ok (some [x], 1, ⟨g.stream, g.pos + 2⟩) := by
  have hfl : (0 : Int) < tm := by omega
  refine ⟨((g.stream (g.pos + 1) % tm.toNat : Nat) : Int), Int.natCast_nonneg _, ?_, ?_⟩
  · have hmod : g.stream (g.pos + 1) % tm.toNat < tm.toNat := Nat.mod_lt _ (by omega)
    have := Int.toNat_of_nonneg hfl.le
    omega
  · rw [rmo_run_zero g (by norm_num), Int.fdiv_one]
    rw [show MAX_ITERS = 999 + 1 from rfl]
    have hd := @drawOffsets_run tm 0 hfl
      (List.range ((1 : Int).toNat)) ⟨g.stream, g.pos + 1⟩
    rw [attemptLoop_accept hd (Or.inl rfl)]
    rw [show ((1 : Int).toNat) = 1 from rfl, show List.range 1 = [0] from rfl]
    simp only [explicitOffsets, List.length_cons, List.length_nil]
    simp only [Except.ok.injEq, Prod.mk.injEq, Rng.mk.injEq, Option.some.injEq]
    refine ⟨?_, trivial⟩
    simp

/-- C6 witness: a window of 5 minutes with an impossible gap of 100 still
succeeds at the first attempt when there is a single sample. -/
theorem claim_c6_witness :
    (1 : Int) ≤ 5 ∧ ∃ x : Int, 0 ≤ x ∧ x < 5 ∧
      randomMinuteOffsets 1 5 100 0 ⟨fun _ => 3, 0⟩ =
        .ok (some [x], 1, ⟨fun _ => 3, 0 + 2⟩) :=
  ⟨by norm_num, claim_c6 5 100 ⟨fun _ => 3, 0⟩ (by norm_num)⟩

/-- C9 (implicit): for num_samples >= 1, gap_minutes = 0, jitter_scale = 0
and total_minutes >= num_samples (so fragment_length >= 1), the rejection
branch is unreachable: consecutive offsets differ by at least 1 (they are
strictly increasing integers), so the very first attempt is accepted and
`random_minute_offsets` never reaches its exhaustion outcome. -/
theorem claim_c9 (ns tm : Int) (g : Rng) (hns : 1 ≤ ns) (htm : ns ≤ tm) :
    ∃ (out : List Int) (g' : Rng),
      randomMinuteOffsets ns tm 0 0 g = .ok (some out, 1, g') ∧
      List.Chain' (fun a b : Int => a < b) out := by
  have hpos : (0 : Int) < ns := by omega
  have hfl : 1 ≤ Int.fdiv tm ns := by
    by_contra hle
    push_neg at hle
    have h1 := Int.fmod_add_fdiv tm ns
    have h2 := Int.fmod_lt_of_pos tm hpos
    have h3 : ns * Int.fdiv tm ns ≤ 0 :=
      mul_nonpos_of_nonneg_of_nonpos hpos.le (by omega)
    linarith
  have hd := @drawOffsets_run (Int.fdiv tm ns) 0 (by omega)
    (List.range ns.toNat) ⟨g.stream, g.pos + 1⟩
  obtain ⟨hlen, -, helts⟩ := drawOffsets_ok hd
  set out := explicitOffsets (Int.fdiv tm ns) 0 (List.range ns.toNat)
    ⟨g.stream, g.pos + 1⟩ with houtdef
  have hadj : ∀ (k : Nat) (a b : Int), out[k]? = some a → out[k + 1]? = some b →
      a < b := by
    intro k a b ha hb
    have hk : k < out.length := (List.getElem?_eq_some.mp ha).1
    have hk1 : k + 1 < out.length := (List.getElem?_eq_some.mp hb).1
    rw [hlen, List.length_range] at hk hk1
    obtain ⟨r, hr0, hrlt, he⟩ := helts k k (by rw [List.getElem?_range hk])
    obtain ⟨r', hr0', hrlt', he'⟩ := helts (k + 1) (k + 1)
      (by rw [List.getElem?_range hk1])
    rw [ha] at he
    rw [hb] at he'
    have ha' := Option.some.inj he
    have hb' := Option.some.inj he'
    have hc : ((k + 1 : Nat) : Int) = (k : Int) + 1 := by push_cast; ring
    rw [hc] at hb'
    have hep : ((k : Int) + 1) * Int.fdiv tm ns = (k : Int) * Int.fdiv tm ns +
      Int.fdiv tm ns := by ring
    rw [ha', hb']
    linarith
  have hacc : ns = 1 ∨ ∃ m, listMin (consecDiffs out) = some m ∧ (0 : Int) < m := by
    by_cases h1 : ns = 1
    · exact Or.inl h1
    · right
      have h2le : 2 ≤ out.length := by
        rw [hlen, List.length_range]
        omega
      obtain ⟨m, hm⟩ : ∃ m, listMin (consecDiffs out) = some m := by
        cases hcd : consecDiffs out with
        | nil => exact absurd hcd (consecDiffs_ne_nil h2le)
        | cons x xs => exact ⟨xs.foldl min x, rfl⟩
      refine ⟨m, hm, ?_⟩
      have hmem := (listMin_spec hm).1
      obtain ⟨k, a, b, ha, hb, rfl⟩ := consecDiffs_mem hmem
      have := hadj k a b ha hb
      omega
  refine ⟨out, ⟨g.stream, g.pos + 1 + ns.toNat⟩, ?_, ?_⟩
  · rw [rmo_run_zero g (by omega), show MAX_ITERS = 999 + 1 from rfl,
      attemptLoop_accept hd hacc]
    simp [List.length_range]
  · rw [List.chain'_iff_get]
    intro i hi
    refine hadj i _ _ ?_ ?_
    · rw [List.get_eq_getElem, List.getElem?_eq_getElem]
    · rw [List.get_eq_getElem, List.getElem?_eq_getElem]

/-- C9 witness: three samples over nine minutes with gap 0 on the all-zero
stream accept at once. -/
theorem claim_c9_witness :
    (1 : Int) ≤ 3 ∧ (3 : Int) ≤ 9 ∧
      ∃ (out : List Int) (g' : Rng),
        randomMinuteOffsets 3 9 0 0 ⟨fun _ => 0, 0⟩ = .ok (some out, 1, g') ∧
        List.Chain' (fun a b : Int => a < b) out :=
  ⟨by norm_num, by norm_num, claim_c9 3 9 ⟨fun _ => 0, 0⟩ (by norm_num) (by norm_num)⟩

/-- C7: The Time-Delta Parser maps equivalent 12-hour and 24-hour
spellings of the same clock time to the same offset from midnight:
"3:00 PM" and "15:00" both parse to 15 hours 0 minutes (900 minutes), and
the parser is case- and spacing-insensitive, so "3:00pm" with no space and
lowercase meridiem parses to the same offset. -/
theorem claim_c7 :
    timeStrToDelta "3:00 PM" = .ok 900 ∧
      timeStrToDelta "15:00" = .ok 900 ∧
      timeStrToDelta "3:00pm" = .ok 900 ∧
      timeStrToDelta "3:00 PM" = timeStrToDelta "15:00" ∧
      timeStrToDelta "3:00pm" = timeStrToDelta "3:00 PM" :=
  ⟨rfl, rfl, rfl, rfl, rfl⟩

/-- The scheduled field's format string `"%Y-%m-%d %H:%M:00"` ends in the
literal seconds "00", so every formatted timestamp does. -/
theorem strftimeSched_suffix (t : Int) : ∃ p : String, strftimeSched t = p ++ ":00" :=
  ⟨_, rfl⟩

/-- With no key collisions between the caller-chosen field names and the
fixed REDCap keys, the row built for entry `inum` is exactly the record
field, the optional event and instrument fields, the 1-based repeat
instance, and the formatted schedule field, in insertion order. -/
theorem mkRow_eq (rid rf sf : String) (instf evn : Option String) (inum : Nat) (t : Int)
    (h1 : rf ≠ "redcap_event_name") (h2 : rf ≠ "redcap_repeat_instrument")
    (h3 : rf ≠ "redcap_repeat_instance") (h4 : sf ≠ "redcap_event_name")
    (h5 : sf ≠ "redcap_repeat_instrument") (h6 : sf ≠ "redcap_repeat_instance")
    (h7 : rf ≠ sf) :
    mkRow rid rf instf evn sf inum t =
      [(rf, RVal.str rid)] ++
      (match evn with | some e => [("redcap_event_name", RVal.str e)] | none => []) ++
      (match instf with | some f => [("redcap_repeat_instrument", RVal.str f)] | none => []) ++
      [("redcap_repeat_instance", RVal.int (inum + 1)), (sf, RVal.str (strftimeSched t))] := by
  cases evn <;> cases instf <;>
    simp [mkRow, dictInsert, h1, h2, h3, h7, Ne.symm h4, Ne.symm h5, Ne.symm h6]

/-- `schedule_to_dicts` produces one row per schedule entry. -/
theorem scheduleToDictsAux_length (rid rf : String) (instf evn : Option String)
    (sf : String) : ∀ (base : Nat) (ts : List Int),
    (scheduleToDictsAux rid rf instf evn sf base ts).length = ts.length
  | _, [] => rfl
  | base, t :: ts => by
    rw [scheduleToDictsAux]
    simp [scheduleToDictsAux_length rid rf instf evn sf (base + 1) ts]

/-- The k-th row produced from a running index `base` is the row built for
entry number `base + k`. -/
theorem scheduleToDictsAux_getElem? (rid rf : String) (instf evn : Option String)
    (sf : String) : ∀ (base k : Nat) (ts : List Int) (t : Int), ts[k]? = some t →
    (scheduleToDictsAux rid rf instf evn sf base ts)[k]? =
      some (mkRow rid rf instf evn sf (base + k) t)
  | _, k, [], t, h => by simp at h
  | base, 0, t0 :: ts, t, h => by
    simp only [List.getElem?_cons_zero, Option.some.injEq] at h
    subst h
    rw [scheduleToDictsAux]
    simp
  | base, k + 1, t0 :: ts, t, h => by
    rw [List.getElem?_cons_succ] at h
    rw [scheduleToDictsAux, List.getElem?_cons_succ]
    rw [scheduleToDictsAux_getElem? rid rf instf evn sf (base + 1) k ts t h]
    have harith : base + 1 + k = base + (k + 1) := by omega
    rw [harith]

/-- C8: For every schedule, schedule_to_dicts produces one row mapping per
timestamp in schedule order; assuming the caller-chosen record and
schedule field names do not collide with the fixed REDCap keys or each
other, each row carries the record field mapped to the record id, an
event-name field present exactly when event_name is not None, a
repeat-instrument field present exactly when instrument_field is not None,
a 1-based repeat-instance counter (the k-th row, counting from 0, has
repeat instance k + 1), and the scheduled field formatted as
YYYY-MM-DD HH:MM:00 with the seconds component always the literal zero. -/
theorem claim_c8 (sched : List Int) (rid rf sf : String) (instf evn : Option String)
    (h1 : rf ≠ "redcap_event_name") (h2 : rf ≠ "redcap_repeat_instrument")
    (h3 : rf ≠ "redcap_repeat_instance") (h4 : sf ≠ "redcap_event_name")
    (h5 : sf ≠ "redcap_repeat_instrument") (h6 : sf ≠ "redcap_repeat_instance")
    (h7 : rf ≠ sf) :
    (scheduleToDicts sched rid rf instf evn sf).length = sched.length ∧
    ∀ (k : Nat) (t : Int), sched[k]? = some t → ∃ row : Row,
      (scheduleToDicts sched rid rf instf evn sf)[k]? = some row ∧
      row = [(rf, RVal.str rid)] ++
        (match evn with | some e => [("redcap_event_name", RVal.str e)] | none => []) ++
        (match instf with | some f => [("redcap_repeat_instrument", RVal.str f)] | none => []) ++
        [("redcap_repeat_instance", RVal.int (k + 1)), (sf, RVal.str (strftimeSched t))] ∧
      ("redcap_event_name" ∈ row.map Prod.fst ↔ evn ≠ none) ∧
      ("redcap_repeat_instrument" ∈ row.map Prod.fst ↔ instf ≠ none) ∧
      ∃ p : String, strftimeSched t = p ++ ":00" := by
  refine ⟨scheduleToDictsAux_length rid rf instf evn sf 0 sched, ?_⟩
  intro k t ht
  have hrow := scheduleToDictsAux_getElem? rid rf instf evn sf 0 k sched t ht
  rw [Nat.zero_add] at hrow
  refine ⟨mkRow rid rf instf evn sf k t, hrow,
    mkRow_eq rid rf sf instf evn k t h1 h2 h3 h4 h5 h6 h7, ?_, ?_,
    strftimeSched_suffix t⟩
  · rw [mkRow_eq rid rf sf instf evn k t h1 h2 h3 h4 h5 h6 h7]
    cases evn <;> cases instf <;>
      simp [Ne.symm h1, Ne.symm h4]
  · rw [mkRow_eq rid rf sf instf evn k t h1 h2 h3 h4 h5 h6 h7]
    cases evn <;> cases instf <;>
      simp [Ne.symm h2, Ne.symm h5]

/-- C8 witness: a one-entry schedule with an event name, no repeat
instrument, and non-colliding field names. -/
theorem claim_c8_witness :
    ("record_id" : String) ≠ "redcap_event_name" ∧
    (scheduleToDicts [0] "r1" "record_id" none (some "ev") "ema_time").length =
      ([0] : List Int).length ∧
    ∃ row : Row,
      (scheduleToDicts [0] "r1" "record_id" none (some "ev") "ema_time")[0]? = some row ∧
      row = [("record_id", RVal.str "r1")] ++
        (match (some "ev" : Option String) with
          | some e => [("redcap_event_name", RVal.str e)] | none => []) ++
        (match (none : Option String) with
          | some f => [("redcap_repeat_instrument", RVal.str f)] | none => []) ++
        [("redcap_repeat_instance", RVal.int (0 + 1)),
          ("ema_time", RVal.str (strftimeSched 0))] ∧
      ("redcap_event_name" ∈ row.map Prod.fst ↔ (some "ev" : Option String) ≠ none) ∧
      ("redcap_repeat_instrument" ∈ row.map Prod.fst ↔ (none : Option String) ≠ none) ∧
      ∃ p : String, strftimeSched 0 = p ++ ":00" := by
  have h := claim_c8 [0] "r1" "record_id" "ema_time" none (some "ev")
    (by decide) (by decide) (by decide) (by decide) (by decide) (by decide) (by decide)
  exact ⟨by decide, h.1, h.2 0 0 rfl⟩

/-- Inserting the same key into two dicts with the same key sequence
yields the same key sequence, whatever the values: a Python dict's key
order depends only on the order of key insertions. -/
theorem dictInsert_keys_congr : ∀ {d1 d2 : Row} (k : String) (v1 v2 : RVal),
    d1.map Prod.fst = d2.map Prod.fst →
    (dictInsert d1 k v1).map Prod.fst = (dictInsert d2 k v2).map Prod.fst
  | [], [], k, v1, v2, _ => rfl
  | [], p :: d2, k, v1, v2, h => by simp at h
  | p :: d1, [], k, v1, v2, h => by simp at h
  | p1 :: d1, p2 :: d2, k, v1, v2, h => by
    simp only [List.map_cons, List.cons.injEq] at h
    obtain ⟨hh, ht⟩ := h
    rw [dictInsert, dictInsert]
    by_cases hk : p1.1 = k
    · rw [if_pos hk, if_pos (by rw [← hh]; exact hk)]
      simp [ht]
    · rw [if_neg hk, if_neg (by rw [← hh]; exact hk)]
      simp only [List.map_cons, List.cons.injEq]
      exact ⟨hh, dictInsert_keys_congr k v1 v2 ht⟩

/-- The key sequence of a built row does not depend on the entry number or
the timestamp — the only per-row data — because those only affect
values. -/
theorem mkRow_keys (rid rf sf : String) (instf evn : Option String)
    (inum inum' : Nat) (t t' : Int) :
    (mkRow rid rf instf evn sf inum t).map Prod.fst =
      (mkRow rid rf instf evn sf inum' t').map Prod.fst := by
  cases evn <;> cases instf <;>
    · simp only [mkRow]
      apply dictInsert_keys_congr
      apply dictInsert_keys_congr
      rfl

/-- C10 (implicit): within a single invocation of schedule_to_dicts, every
produced row has exactly the same keys in the same insertion order,
because the presence of the optional keys depends only on arguments that
are constant across the loop; hence a header derived from the first row's
keys matches all rows. -/
theorem claim_c10 (sched : List Int) (rid rf sf : String) (instf evn : Option String)
    (i j : Nat)
    (hi : i < (scheduleToDicts sched rid rf instf evn sf).length)
    (hj : j < (scheduleToDicts sched rid rf instf evn sf).length) :
    ∃ ri rj : Row,
      (scheduleToDicts sched rid rf instf evn sf)[i]? = some ri ∧
      (scheduleToDicts sched rid rf instf evn sf)[j]? = some rj ∧
      ri.map Prod.fst = rj.map Prod.fst := by
  have hlen := scheduleToDictsAux_length rid rf instf evn sf 0 sched
  rw [scheduleToDicts, hlen] at hi hj
  have hti : sched[i]? = some sched[i] := List.getElem?_eq_getElem hi
  have htj : sched[j]? = some sched[j] := List.getElem?_eq_getElem hj
  have hri := scheduleToDictsAux_getElem? rid rf instf evn sf 0 i sched sched[i] hti
  have hrj := scheduleToDictsAux_getElem? rid rf instf evn sf 0 j sched sched[j] htj
  rw [Nat.zero_add] at hri hrj
  exact ⟨_, _, hri, hrj, mkRow_keys rid rf sf instf evn i j sched[i] sched[j]⟩

/-- C10 witness: a two-entry schedule; both rows carry the same keys. -/
theorem claim_c10_witness :
    ∃ ri rj : Row,
      (scheduleToDicts [0, 70] "r1" "record_id" (some "instr") none "ema_time")[0]? =
        some ri ∧
      (scheduleToDicts [0, 70] "r1" "record_id" (some "instr") none "ema_time")[1]? =
        some rj ∧
      ri.map Prod.fst = rj.map Prod.fst :=
  claim_c10 [0, 70] "r1" "record_id" "ema_time" (some "instr") none 0 1
    (by decide) (by decide)

end EmaGen
